import Mathlib

/-!
Verification of the Program Repository & Execution Manager
(`niryo_robot_programs_manager_v2/ProgramsManager.py`).

The manager orchestration (`ProgramsManager`) is embedded directly from the
source. Its collaborators (`niryo_robot_database.Program`,
`ProgramsFileManager`, `PythonRunner`) are part of the repository but their
sources are not available here; they are modelled from the specification
(sections 4.2, 4.3, 6) and marked as such in their doc comments.

Machine-level details that are irrelevant to the verified claims are
abstracted: the `saved_at` wall-clock timestamp column is omitted (no claim
mentions it), and directory listings / SQL tables are modelled as association
lists.
-/

namespace ProgramsManagerV2

/-- Errors surfaced by the manager and its collaborators (spec section 7
taxonomy, plus the Python `KeyError` raised by `dict.pop` on a missing key). -/
inductive ManagerError
  | notFound
  | alreadyRunning
  | storageFailure
  | keyError
deriving Repr, DecidableEq

/-- Modelled from the spec: a metadata record of the store
`niryo_robot_database.Program` (source not under `src/`): non-body fields of a
program (spec section 3; the `saved_at` wall-clock timestamp is omitted). -/
structure DBRecord where
  id : String
  name : String
  description : String
  hasBlockly : Bool
deriving Repr, DecidableEq

/-- The merged program view built by `ProgramsManager.get` (the `ProgramDict`
`TypedDict` of the source, `saved_at` omitted). -/
structure ProgramDict where
  id : String
  name : String
  description : String
  hasBlockly : Bool
  pythonCode : String
  blocklyCode : String
deriving Repr, DecidableEq

/-- Modelled from the spec: a `ProgramsFileManager` store (source not under
`src/`): one body file per program id (spec section 4.2), as an association
list id ↦ body. -/
abbrev FileStore := List (String × String)

/-- The ids present in a file store (`ProgramsFileManager.get_all_names`). -/
def fileNames (fs : FileStore) : List String :=
  fs.map (fun f => f.1)

/-- Modelled from the spec: `ProgramsFileManager.read` — body of the file
named by the id, if present. -/
def fileRead (fs : FileStore) (pid : String) : Option String :=
  (fs.find? (fun f => f.1 == pid)).map (fun f => f.2)

/-- Modelled from the spec: `ProgramsFileManager.create` — writes a new body
file for the id. -/
def fileCreate (fs : FileStore) (pid body : String) : FileStore :=
  fs ++ [(pid, body)]

/-- Modelled from the spec: `ProgramsFileManager.edit` — replaces the body of
the file named by the id. -/
def fileEdit (fs : FileStore) (pid body : String) : FileStore :=
  fs.map (fun f => if f.1 == pid then (f.1, body) else f)

/-- Modelled from the spec: `ProgramsFileManager.remove` — deletes the file
named by the id. -/
def fileRemove (fs : FileStore) (pid : String) : FileStore :=
  fs.filter (fun f => !(f.1 == pid))

/-- Modelled from the spec: metadata store `get_by_id` (spec section 6). -/
def dbGetById (db : List DBRecord) (pid : String) : Option DBRecord :=
  db.find? (fun r => r.id == pid)

/-- Modelled from the spec: metadata store `insert` (spec section 6). -/
def dbInsertProgram (db : List DBRecord) (pid name description : String)
    (hasBlockly : Bool) : List DBRecord :=
  db ++ [⟨pid, name, description, hasBlockly⟩]

/-- Modelled from the spec: metadata store `delete` (spec section 6). -/
def dbDeleteProgram (db : List DBRecord) (pid : String) : List DBRecord :=
  db.filter (fun r => !(r.id == pid))

/-- Modelled from the spec: metadata store `update` with optional fields
(spec section 6): only the provided fields of the record are changed. -/
def dbUpdateFields (db : List DBRecord) (pid : String)
    (name? description? : Option String) (hasBlockly? : Option Bool) :
    List DBRecord :=
  db.map (fun r =>
    if r.id == pid then
      { r with
        name := name?.getD r.name
        description := description?.getD r.description
        hasBlockly := hasBlockly?.getD r.hasBlockly }
    else r)

/-- The in-memory program index (`self.__programs`, a Python dict), as an
association list id ↦ merged record, in insertion order. -/
abbrev ProgramCache := List (String × ProgramDict)

/-- Python `dict` lookup on the cache. -/
def cacheGet (c : ProgramCache) (pid : String) : Option ProgramDict :=
  (c.find? (fun e => e.1 == pid)).map (fun e => e.2)

/-- Python `dict.pop`: removes the entry for the key. -/
def cacheRemove (c : ProgramCache) (pid : String) : ProgramCache :=
  c.filter (fun e => !(e.1 == pid))

/-- Python `dict` assignment: replaces in place if present, appends
otherwise. -/
def cacheSet (c : ProgramCache) (pid : String) (prog : ProgramDict) :
    ProgramCache :=
  if (c.map (fun e => e.1)).contains pid then
    c.map (fun e => if e.1 == pid then (e.1, prog) else e)
  else c ++ [(pid, prog)]

/-- The combined state of the manager: the metadata store, the python (script)
and blockly (visual) file stores, and the in-memory cache. -/
structure ManagerState where
  db : List DBRecord
  pyFiles : FileStore
  blocklyFiles : FileStore
  cache : ProgramCache
deriving Repr, DecidableEq

/-- `ProgramsManager.get` (source lines 105-109): merged view of a program.
Fails with NotFound when the id is absent from the metadata store; a missing
body file surfaces as a storage failure. -/
def get (s : ManagerState) (pid : String) : Except ManagerError ProgramDict :=
  match dbGetById s.db pid with
  | none => .error .notFound
  | some r =>
    match fileRead s.pyFiles pid with
    | none => .error .storageFailure
    | some pythonCode =>
      match (if r.hasBlockly then fileRead s.blocklyFiles pid else some "") with
      | none => .error .storageFailure
      | some blocklyCode =>
        .ok ⟨r.id, r.name, r.description, r.hasBlockly, pythonCode, blocklyCode⟩

/-- `ProgramsManager.exists` (source lines 102-103): true only if the metadata
store and the script file store agree the program exists. -/
def existsProgram (s : ManagerState) (pid : String) : Bool :=
  (s.db.map (fun r => r.id)).contains pid && (fileNames s.pyFiles).contains pid

/-- `ProgramsManager.create_program` (source lines 70-79). The fresh id
(`uuid4` in the source) is passed as the argument `pid`. Metadata is written
first, then the script body, then the blockly body if provided, then the cache
entry. -/
def createProgram (s : ManagerState) (pid name description pythonCode : String)
    (blocklyCode : String := "") : ManagerState × Option ManagerError :=
  let hasBlockly := blocklyCode != ""
  let db' := dbInsertProgram s.db pid name description hasBlockly
  let py' := fileCreate s.pyFiles pid pythonCode
  let bl' := if hasBlockly then fileCreate s.blocklyFiles pid blocklyCode else s.blocklyFiles
  let s' : ManagerState := ⟨db', py', bl', s.cache⟩
  match get s' pid with
  | .error e => (s', some e)
  | .ok prog => ({ s' with cache := cacheSet s'.cache pid prog }, none)

/-- `ProgramsManager.delete_program` (source lines 81-86): deletes the
metadata record, then the script file, then pops the cache entry (a missing
cache entry raises `KeyError` after the first two deletions, as in Python),
then deletes the blockly file when the popped record had one. -/
def deleteProgram (s : ManagerState) (pid : String) :
    ManagerState × Option ManagerError :=
  let db' := dbDeleteProgram s.db pid
  let py' := fileRemove s.pyFiles pid
  match cacheGet s.cache pid with
  | none => (⟨db', py', s.blocklyFiles, s.cache⟩, some .keyError)
  | some prog =>
    let cache' := cacheRemove s.cache pid
    let bl' := if prog.hasBlockly then fileRemove s.blocklyFiles pid else s.blocklyFiles
    (⟨db', py', bl', cache'⟩, none)

/-- `ProgramsManager.update_program` (source lines 88-100). Modelled from the
spec for the part raised by collaborators not under `src/`: section 4.1
requires the id to exist and fails with NotFound otherwise (in the source this
failure is raised by the metadata store / file store, whose code is not
available); on that failure nothing has been written. For an existing id the
source order is: metadata update, script edit, blockly edit if a blockly body
was provided, cache pop (KeyError if absent), cache re-insertion of the fresh
merged view. -/
def updateProgram (s : ManagerState) (pid name description pythonCode : String)
    (blocklyCode : String := "") : ManagerState × Option ManagerError :=
  if existsProgram s pid then
    let hasBlockly := blocklyCode != ""
    let db' := dbUpdateFields s.db pid (some name) (some description) (some hasBlockly)
    let py' := fileEdit s.pyFiles pid pythonCode
    let bl' := if hasBlockly then fileEdit s.blocklyFiles pid blocklyCode else s.blocklyFiles
    let s' : ManagerState := ⟨db', py', bl', s.cache⟩
    match cacheGet s.cache pid with
    | none => (s', some .keyError)
    | some _ =>
      let s'' : ManagerState := { s' with cache := cacheRemove s'.cache pid }
      match get s'' pid with
      | .error e => (s'', some e)
      | .ok prog => ({ s'' with cache := s''.cache ++ [(pid, prog)] }, none)
  else (s, some .notFound)

/-- The metadata record synthesized by the reconciliation pass for a script
file with no record (source lines 63-66): name = id, description =
"Unknown program", has_blockly true iff a blockly file with the same id
exists. -/
def adoptedRecord (pid : String) (blocklyNames : List String) : DBRecord :=
  ⟨pid, pid, "Unknown program", blocklyNames.contains pid⟩

/-- First loop of `ProgramsManager.__sync_db_with_system` (source lines
51-57): iterates over the snapshot `db_programs` taken before the loop and,
against the live store `acc`, deletes records with no script file and clears
`has_blockly` on records whose blockly file is missing. -/
def syncPass1 (snapshot : List DBRecord) (pyNames blocklyNames : List String)
    (acc : List DBRecord) : List DBRecord :=
  snapshot.foldl (fun acc p =>
    if !(pyNames.contains p.id) then dbDeleteProgram acc p.id
    else if p.hasBlockly && !(blocklyNames.contains p.id) then
      dbUpdateFields acc p.id none none (some false)
    else acc) acc

/-- Second loop of `ProgramsManager.__sync_db_with_system` (source lines
59-66): inserts a synthesized record for every script file whose id is not
among the snapshot ids `db_programs_ids`. -/
def syncPass2 (snapshotIds : List String) (pyNames blocklyNames : List String)
    (acc : List DBRecord) : List DBRecord :=
  pyNames.foldl (fun acc n =>
    if !(snapshotIds.contains n) then acc ++ [adoptedRecord n blocklyNames]
    else acc) acc

/-- `ProgramsManager.__sync_db_with_system` (source lines 43-66), acting on
the metadata store given the two file-store listings. -/
def syncDb (db : List DBRecord) (pyNames blocklyNames : List String) :
    List DBRecord :=
  syncPass2 (db.map (fun r => r.id)) pyNames blocklyNames
    (syncPass1 db pyNames blocklyNames db)

/-- A repair action performed (and logged) by the reconciliation pass. -/
inductive RepairAction
  | deleteRecord (pid : String)
  | clearHasBlockly (pid : String)
  | adoptProgram (pid : String)
deriving Repr, DecidableEq

/-- The repair actions one run of `__sync_db_with_system` performs on the
given stores: exactly the mutations (with their `logwarn` calls) of source
lines 53-54, 56-57 and 62-66, in source order. -/
def syncRepairs (db : List DBRecord) (pyNames blocklyNames : List String) :
    List RepairAction :=
  db.filterMap (fun p =>
    if !(pyNames.contains p.id) then some (.deleteRecord p.id)
    else if p.hasBlockly && !(blocklyNames.contains p.id) then
      some (.clearHasBlockly p.id)
    else none)
  ++ pyNames.filterMap (fun n =>
    if !((db.map (fun r => r.id)).contains n) then some (.adoptProgram n)
    else none)

/-- The reconciliation pass at the level of the whole manager state: only the
metadata store is mutated; the source reads the file stores through
`get_all_names` and never writes them. -/
def syncDbWithSystem (s : ManagerState) : ManagerState :=
  { s with db := syncDb s.db (fileNames s.pyFiles) (fileNames s.blocklyFiles) }

/-- The repair actions of a reconciliation run on a manager state. -/
def syncRepairsState (s : ManagerState) : List RepairAction :=
  syncRepairs s.db (fileNames s.pyFiles) (fileNames s.blocklyFiles)

/-- Invariant I1 (spec section 3): every id known to the metadata store has a
script body in the script file store. -/
def invariantI1 (s : ManagerState) : Prop :=
  ∀ r ∈ s.db, (fileNames s.pyFiles).contains r.id = true

/- Execution models. -/

/-- Modelled from the spec: the phase of the `PythonRunner` session state
machine (spec section 4.3; `PythonRunner` is not under `src/`). The terminal
phase carries the recorded exit code. -/
inductive RunnerPhase
  | idle
  | running
  | finished (exitCode : Int)
deriving Repr, DecidableEq

/-- Modelled from the spec: the `PythonRunner` session state (spec sections
3 and 4.3): phase, `exit_status` (none before any run, set on termination by
any path) and the append-only `output` buffer. -/
structure RunnerState where
  phase : RunnerPhase
  exitStatus : Option Int
  output : String
deriving Repr, DecidableEq

/-- The runner's `is_running` accessor. -/
def runnerIsRunning (r : RunnerState) : Bool :=
  match r.phase with
  | .running => true
  | _ => false

/-- Modelled from the spec: `PythonRunner.start` (spec section 4.3): fails
with AlreadyRunning while a session is running, leaving the session
untouched; otherwise begins a fresh Running session (a terminal phase
auto-resets). -/
def runnerStart (r : RunnerState) : RunnerState × Option ManagerError :=
  match r.phase with
  | .running => (r, some .alreadyRunning)
  | _ => (⟨.running, none, ""⟩, none)

/-- Whether the caller of `ProgramsManager.__execute` is still inside the
busy-wait loop of source line 135. -/
inductive CallerPhase
  | waiting
  | returned
deriving Repr, DecidableEq

/-- Joint state of one `execute_from_id` / `execute_from_code` call: the
calling thread's phase, whether the spawned thread has already issued
`runner.start` for this call (`launched`), and the runner session. The
session's `exit_status` persists from any previous run until the next
`start` resets it (spec section 4.3; the source reads the persisted value at
line 130), which is why the state of the previous run must be representable
here. -/
structure ExecState where
  caller : CallerPhase
  launched : Bool
  runner : RunnerState
deriving Repr, DecidableEq

/-- The guard of the busy-wait loop in `ProgramsManager.__execute` (source
line 135): the caller keeps sleeping while the runner is not running and
`exit_status` is still none. -/
def execWaitGuard (r : RunnerState) : Bool :=
  !(runnerIsRunning r) && r.exitStatus.isNone

/-- Interleaved small-step semantics of one `__execute` call (source lines
132-136) together with the spawned runner session (runner transitions
modelled from spec section 4.3): the spawned thread issues `start` exactly
once for this call — when no session is running it resets any terminal
state and enters Running with a cleared `exit_status`, or it fails to
launch and terminates with a synthetic exit status; a running session may
emit output or terminate; the caller may leave the busy-wait loop whenever
the loop guard of line 135 is false, regardless of whether the guard became
false through this call's execution or through the persisted `exit_status`
of a previous run. -/
inductive ExecStep : ExecState → ExecState → Prop
  | launch (c : CallerPhase) (r : RunnerState) :
      runnerIsRunning r = false →
      ExecStep ⟨c, false, r⟩ ⟨c, true, ⟨.running, none, ""⟩⟩
  | launchFail (c : CallerPhase) (r : RunnerState) (code : Int) :
      runnerIsRunning r = false →
      ExecStep ⟨c, false, r⟩ ⟨c, true, ⟨.finished code, some code, ""⟩⟩
  | emit (c : CallerPhase) (l : Bool) (es : Option Int) (out chunk : String) :
      ExecStep ⟨c, l, ⟨.running, es, out⟩⟩ ⟨c, l, ⟨.running, es, out ++ chunk⟩⟩
  | finish (c : CallerPhase) (l : Bool) (es : Option Int) (out : String)
      (code : Int) :
      ExecStep ⟨c, l, ⟨.running, es, out⟩⟩ ⟨c, l, ⟨.finished code, some code, out⟩⟩
  | ret (l : Bool) (r : RunnerState) :
      execWaitGuard r = false →
      ExecStep ⟨.waiting, l, r⟩ ⟨.returned, l, r⟩

/-- Initial state of an `__execute` call on a fresh manager: no run has ever
happened, the runner is idle with `exit_status = none` and `start` has not
yet been issued. -/
def execInitFresh : ExecState :=
  ⟨.waiting, false, ⟨.idle, none, ""⟩⟩

/-- Initial state of a repeat `__execute` call, issued after a previous run
terminated with exit code `code` and output `out`: the session's
`exit_status` is still the previous run's (spec section 4.3; read by the
source at line 130), and `start` for the new call has not yet been issued by
the spawned thread. -/
def execInitRepeat (code : Int) (out : String) : ExecState :=
  ⟨.waiting, false, ⟨.finished code, some code, out⟩⟩

/-- Reachability along the interleaved execution steps from a given initial
state. -/
def ExecReachableFrom (init s : ExecState) : Prop :=
  Relation.ReflTransGen ExecStep init s

/- Temporary-file lifecycle of `execute_from_code` (source lines 142-148). -/

/-- Phase of the spawned `execute_with_context` thread of
`execute_from_code`: before the `with` block, after the temporary body file
has been created, after `runner.start` has returned, and after the `with`
block has closed. -/
inductive TmpPhase
  | init
  | tmpCreated
  | startReturned
  | scopeClosed
deriving Repr, DecidableEq

/-- Joint state of the `execute_from_code` thread, the temporary body file
and the spawned execution context: `tempPresent` is whether the temporary
file is on disk, `ctxAlive` whether the launched execution context is still
running the body. -/
structure TmpExecState where
  phase : TmpPhase
  tempPresent : Bool
  ctxAlive : Bool
deriving Repr, DecidableEq

/-- Small-step semantics of `execute_with_context` (source lines 144-148)
with the collaborators modelled from the spec: `temporary_file` creates the
body file on entering the `with` block (section 4.2); `runner.start` returns
once the execution context has observably begun, not once it has finished
(section 4.3); closing the `with` block deletes the temporary file on every
exit path (section 4.2); the execution context terminates at some later
step. -/
inductive TmpExecStep : TmpExecState → TmpExecState → Prop
  | createTmp :
      TmpExecStep ⟨.init, false, false⟩ ⟨.tmpCreated, true, false⟩
  | startRet :
      TmpExecStep ⟨.tmpCreated, true, false⟩ ⟨.startReturned, true, true⟩
  | closeScope (alive : Bool) :
      TmpExecStep ⟨.startReturned, true, alive⟩ ⟨.scopeClosed, false, alive⟩
  | ctxFinish (p : TmpPhase) (temp : Bool) :
      TmpExecStep ⟨p, temp, true⟩ ⟨p, temp, false⟩

/-- Initial state of one `execute_from_code` call. -/
def tmpExecInit : TmpExecState :=
  ⟨.init, false, false⟩

/-- Reachability along the temporary-file lifecycle steps. -/
def TmpExecReachable (s : TmpExecState) : Prop :=
  Relation.ReflTransGen TmpExecStep tmpExecInit s

/-- Per-record effect of the first reconciliation loop: what the iterations
over the snapshot suffix `l` do to a record currently in the live store. Used
to re-express the fold of `syncPass1` as a `filterMap`. -/
def pass1Step (pyNames blocklyNames : List String) :
    List DBRecord → DBRecord → Option DBRecord
  | [], r => some r
  | p :: l, r =>
    if !(pyNames.contains p.id) then
      if r.id == p.id then none else pass1Step pyNames blocklyNames l r
    else if p.hasBlockly && !(blocklyNames.contains p.id) then
      pass1Step pyNames blocklyNames l
        (if r.id == p.id then { r with hasBlockly := false } else r)
    else pass1Step pyNames blocklyNames l r

theorem contains_true_iff (l : List String) (a : String) :
    l.contains a = true ↔ a ∈ l := by
  simp [List.contains]

theorem contains_false_iff (l : List String) (a : String) :
    l.contains a = false ↔ a ∉ l := by
  simp [List.contains]

theorem syncPass1_eq_filterMap (pyNames blocklyNames : List String) :
    ∀ (l acc : List DBRecord),
    syncPass1 l pyNames blocklyNames acc = acc.filterMap (pass1Step pyNames blocklyNames l) := by
  intro l
  induction l with
  | nil => intro acc; simp [syncPass1, pass1Step, List.filterMap_some]
  | cons p l ih =>
    intro acc
    have hstep : syncPass1 (p :: l) pyNames blocklyNames acc =
        syncPass1 l pyNames blocklyNames
          (if !(pyNames.contains p.id) then dbDeleteProgram acc p.id
           else if p.hasBlockly && !(blocklyNames.contains p.id) then
             dbUpdateFields acc p.id none none (some false)
           else acc) := rfl
    rw [hstep, ih]
    by_cases h1 : pyNames.contains p.id = true
    · have hm : p.id ∈ pyNames := (contains_true_iff pyNames p.id).mp h1
      by_cases h2 : (p.hasBlockly && !(blocklyNames.contains p.id)) = true
      · have h2' := h2
        simp only [Bool.and_eq_true] at h2'
        have hb : p.hasBlockly = true := h2'.1
        have hnb : p.id ∉ blocklyNames := by
          have h2'' := h2'.2
          simpa [contains_true_iff] using h2''
        rw [if_neg (by simp [hm]), if_pos h2, dbUpdateFields, List.filterMap_map]
        apply List.filterMap_congr
        intro r _
        by_cases hid : r.id = p.id
        · simp [pass1Step, hm, hb, hnb, hid, Function.comp]
        · simp [pass1Step, hm, hb, hnb, hid, Function.comp]
      · rw [if_neg (by simp [hm]), if_neg h2]
        apply List.filterMap_congr
        intro r _
        simp only [Bool.not_eq_true, Bool.and_eq_false_iff] at h2
        by_cases hb : p.hasBlockly = true
        · have hbl : p.id ∈ blocklyNames := by
            rcases h2 with h2 | h2
            · rw [hb] at h2; exact absurd h2 (by simp)
            · simpa [contains_true_iff] using h2
          simp [pass1Step, hm, hb, hbl]
        · simp [pass1Step, hm, hb]
    · have hm : p.id ∉ pyNames := by simpa [contains_true_iff] using h1
      rw [if_pos (by simp [contains_true_iff, hm]), dbDeleteProgram, List.filterMap_filter]
      apply List.filterMap_congr
      intro r _
      by_cases hid : r.id = p.id
      · simp [pass1Step, hm, hid]
      · simp [pass1Step, hm, hid]

theorem pass1Step_shape (pyNames blocklyNames : List String) :
    ∀ (l : List DBRecord) (r r' : DBRecord),
    pass1Step pyNames blocklyNames l r = some r' →
    r' = r ∨ r' = { r with hasBlockly := false } := by
  intro l
  induction l with
  | nil =>
    intro r r' h
    simp only [pass1Step] at h
    exact Or.inl (Option.some.inj h).symm
  | cons p l ih =>
    intro r r' h
    simp only [pass1Step] at h
    by_cases h1 : (!(pyNames.contains p.id)) = true
    · rw [if_pos h1] at h
      by_cases hid : (r.id == p.id) = true
      · rw [if_pos hid] at h; exact absurd h (by simp)
      · rw [if_neg hid] at h; exact ih r r' h
    · rw [if_neg h1] at h
      by_cases h2 : (p.hasBlockly && !(blocklyNames.contains p.id)) = true
      · rw [if_pos h2] at h
        by_cases hid : (r.id == p.id) = true
        · rw [if_pos hid] at h
          rcases ih _ _ h with h' | h'
          · exact Or.inr h'
          · exact Or.inr h'
        · rw [if_neg hid] at h; exact ih r r' h
      · rw [if_neg h2] at h; exact ih r r' h

theorem pass1Step_fields (pyNames blocklyNames : List String)
    (l : List DBRecord) (r r' : DBRecord)
    (h : pass1Step pyNames blocklyNames l r = some r') :
    r'.id = r.id ∧ r'.name = r.name ∧ r'.description = r.description := by
  rcases pass1Step_shape pyNames blocklyNames l r r' h with h' | h' <;>
    simp [h']

theorem pass1Step_skipHead (pyNames blocklyNames : List String)
    (p : DBRecord) (l : List DBRecord) (r : DBRecord) (hid : r.id ≠ p.id) :
    pass1Step pyNames blocklyNames (p :: l) r = pass1Step pyNames blocklyNames l r := by
  have hb : (r.id == p.id) = false := by simp [hid]
  simp only [pass1Step, hb]
  split
  · simp
  · split <;> simp

theorem pass1Step_skipAll (pyNames blocklyNames : List String) :
    ∀ (l : List DBRecord) (r : DBRecord),
    r.id ∉ l.map (fun q => q.id) →
    pass1Step pyNames blocklyNames l r = some r := by
  intro l
  induction l with
  | nil => intro r _; rfl
  | cons p l ih =>
    intro r hr
    simp only [List.map_cons, List.mem_cons, not_or] at hr
    rw [pass1Step_skipHead pyNames blocklyNames p l r hr.1]
    exact ih r hr.2

theorem pass1Step_mem_py (pyNames blocklyNames : List String) :
    ∀ (l : List DBRecord) (r r' : DBRecord),
    r.id ∈ l.map (fun q => q.id) →
    pass1Step pyNames blocklyNames l r = some r' →
    pyNames.contains r.id = true := by
  intro l
  induction l with
  | nil => intro r r' h; simp at h
  | cons p l ih =>
    intro r r' hmem h
    simp only [pass1Step] at h
    by_cases hid : r.id = p.id
    · by_cases h1 : (!(pyNames.contains p.id)) = true
      · rw [if_pos h1, if_pos (by simp [hid])] at h
        exact absurd h (by simp)
      · rw [hid]
        simpa using h1
    · have hmem' : r.id ∈ l.map (fun q => q.id) := by
        simpa [hid] using hmem
      by_cases h1 : (!(pyNames.contains p.id)) = true
      · rw [if_pos h1, if_neg (by simp [hid])] at h
        exact ih r r' hmem' h
      · rw [if_neg h1] at h
        by_cases h2 : (p.hasBlockly && !(blocklyNames.contains p.id)) = true
        · rw [if_pos h2, if_neg (by simp [hid])] at h
          exact ih r r' hmem' h
        · rw [if_neg h2] at h
          exact ih r r' hmem' h

theorem pass1Step_blockly (pyNames blocklyNames : List String) :
    ∀ (l : List DBRecord) (r : DBRecord),
    (∃ p ∈ l, p.id = r.id ∧ p.hasBlockly = true) →
    ∀ r', pass1Step pyNames blocklyNames l r = some r' →
    r'.hasBlockly = true →
    blocklyNames.contains r'.id = true := by
  intro l
  induction l with
  | nil => intro r h; simp at h
  | cons p l ih =>
    intro r hw r' h hr'
    simp only [pass1Step] at h
    by_cases h1 : (!(pyNames.contains p.id)) = true
    · rw [if_pos h1] at h
      by_cases hid : (r.id == p.id) = true
      · rw [if_pos hid] at h; exact absurd h (by simp)
      · rw [if_neg hid] at h
        rcases hw with ⟨q, hq, hqid, hqb⟩
        rcases List.mem_cons.mp hq with rfl | hq'
        · exact absurd (by simp [hqid]) hid
        · exact ih r ⟨q, hq', hqid, hqb⟩ r' h hr'
    · rw [if_neg h1] at h
      by_cases h2 : (p.hasBlockly && !(blocklyNames.contains p.id)) = true
      · rw [if_pos h2] at h
        by_cases hid : (r.id == p.id) = true
        · rw [if_pos hid] at h
          rcases pass1Step_shape pyNames blocklyNames l _ r' h with h' | h' <;>
            · rw [h'] at hr'; exact absurd hr' (by simp)
        · rw [if_neg hid] at h
          rcases hw with ⟨q, hq, hqid, hqb⟩
          rcases List.mem_cons.mp hq with rfl | hq'
          · exact absurd (by simp [hqid]) hid
          · exact ih r ⟨q, hq', hqid, hqb⟩ r' h hr'
      · rw [if_neg h2] at h
        rcases hw with ⟨q, hq, hqid, hqb⟩
        rcases List.mem_cons.mp hq with rfl | hq'
        · have hbl : blocklyNames.contains q.id = true := by
            rcases Bool.and_eq_false_iff.mp (Bool.not_eq_true _ ▸ h2) with hc | hc
            · exact absurd hqb (by simp [hc])
            · simpa using hc
          have hid' : r'.id = r.id :=
            (pass1Step_fields pyNames blocklyNames l r r' h).1
          rw [hid', ← hqid]
          exact hbl
        · exact ih r ⟨q, hq', hqid, hqb⟩ r' h hr'

theorem pass1Step_total_of_py (pyNames blocklyNames : List String) :
    ∀ (l : List DBRecord) (r : DBRecord),
    pyNames.contains r.id = true →
    ∃ r', pass1Step pyNames blocklyNames l r = some r' ∧ r'.id = r.id := by
  intro l
  induction l with
  | nil => intro r _; exact ⟨r, rfl, rfl⟩
  | cons p l ih =>
    intro r hr
    by_cases hid : r.id = p.id
    · have h1 : (!(pyNames.contains p.id)) = false := by
        rw [← hid]; simp [(contains_true_iff pyNames r.id).mp hr]
      by_cases h2 : (p.hasBlockly && !(blocklyNames.contains p.id)) = true
      · have hunf : pass1Step pyNames blocklyNames (p :: l) r =
            pass1Step pyNames blocklyNames l { r with hasBlockly := false } := by
          simp only [pass1Step]
          rw [if_neg (by rw [h1]; simp), if_pos h2, if_pos (by simp [hid])]
        rw [hunf]
        exact ih { r with hasBlockly := false } hr
      · have hunf : pass1Step pyNames blocklyNames (p :: l) r =
            pass1Step pyNames blocklyNames l r := by
          simp only [pass1Step]
          rw [if_neg (by rw [h1]; simp), if_neg h2]
        rw [hunf]
        exact ih r hr
    · rw [pass1Step_skipHead pyNames blocklyNames p l r hid]
      exact ih r hr

theorem syncPass2_mono (snapshotIds blocklyNames : List String) :
    ∀ (l : List String) (acc : List DBRecord) (a : DBRecord),
    a ∈ acc → a ∈ syncPass2 snapshotIds l blocklyNames acc := by
  intro l
  induction l with
  | nil => intro acc a ha; exact ha
  | cons n l ih =>
    intro acc a ha
    simp only [syncPass2, List.foldl_cons]
    by_cases h : (!(snapshotIds.contains n)) = true
    · rw [if_pos h]
      exact ih _ a (List.mem_append.mpr (Or.inl ha))
    · rw [if_neg h]
      exact ih _ a ha

theorem syncPass2_mem (snapshotIds blocklyNames : List String) :
    ∀ (l : List String) (acc : List DBRecord) (a : DBRecord),
    a ∈ syncPass2 snapshotIds l blocklyNames acc →
    a ∈ acc ∨ ∃ n ∈ l, snapshotIds.contains n = false ∧ a = adoptedRecord n blocklyNames := by
  intro l
  induction l with
  | nil => intro acc a ha; exact Or.inl ha
  | cons n l ih =>
    intro acc a ha
    simp only [syncPass2, List.foldl_cons] at ha
    by_cases h : (!(snapshotIds.contains n)) = true
    · rw [if_pos h] at ha
      rcases ih _ a ha with hmem | ⟨m, hm, hms, hma⟩
      · rcases List.mem_append.mp hmem with hacc | hnew
        · exact Or.inl hacc
        · refine Or.inr ⟨n, List.mem_cons_self n l, by simpa using h, ?_⟩
          simpa using hnew
      · exact Or.inr ⟨m, List.mem_cons_of_mem n hm, hms, hma⟩
    · rw [if_neg h] at ha
      rcases ih _ a ha with hmem | ⟨m, hm, hms, hma⟩
      · exact Or.inl hmem
      · exact Or.inr ⟨m, List.mem_cons_of_mem n hm, hms, hma⟩

theorem syncPass2_adopts (snapshotIds blocklyNames : List String) :
    ∀ (l : List String) (acc : List DBRecord) (n : String),
    n ∈ l → snapshotIds.contains n = false →
    adoptedRecord n blocklyNames ∈ syncPass2 snapshotIds l blocklyNames acc := by
  intro l
  induction l with
  | nil => intro acc n hn; simp at hn
  | cons m l ih =>
    intro acc n hn hns
    simp only [syncPass2, List.foldl_cons]
    rcases List.mem_cons.mp hn with rfl | hn'
    · rw [if_pos (by simpa using (contains_false_iff snapshotIds n).mp hns)]
      exact syncPass2_mono snapshotIds blocklyNames l _ _
        (List.mem_append.mpr (Or.inr (List.mem_singleton.mpr rfl)))
    · by_cases h : (!(snapshotIds.contains m)) = true
      · rw [if_pos h]; exact ih _ n hn' hns
      · rw [if_neg h]; exact ih _ n hn' hns

theorem syncDb_mem_py (db : List DBRecord) (pyNames blocklyNames : List String) :
    ∀ r' ∈ syncDb db pyNames blocklyNames, pyNames.contains r'.id = true := by
  intro r' hr'
  rcases syncPass2_mem _ _ _ _ _ hr' with hr1 | ⟨n, hn, _, rfl⟩
  · rw [syncPass1_eq_filterMap] at hr1
    rcases List.mem_filterMap.mp hr1 with ⟨r, hr, hstep⟩
    have hid : r'.id = r.id := (pass1Step_fields _ _ _ _ _ hstep).1
    rw [hid]
    exact pass1Step_mem_py pyNames blocklyNames db r r'
      (List.mem_map.mpr ⟨r, hr, rfl⟩) hstep
  · exact (contains_true_iff _ _).mpr hn

theorem syncDb_blockly_ok (db : List DBRecord) (pyNames blocklyNames : List String) :
    ∀ r' ∈ syncDb db pyNames blocklyNames, r'.hasBlockly = true →
    blocklyNames.contains r'.id = true := by
  intro r' hr' hb
  rcases syncPass2_mem _ _ _ _ _ hr' with hr1 | ⟨n, _, _, rfl⟩
  · rw [syncPass1_eq_filterMap] at hr1
    rcases List.mem_filterMap.mp hr1 with ⟨r, hr, hstep⟩
    have hshape := pass1Step_shape pyNames blocklyNames db r r' hstep
    rcases hshape with heq | h'
    · subst heq
      exact pass1Step_blockly pyNames blocklyNames db _ ⟨_, hr, rfl, hb⟩ _ hstep hb
    · rw [h'] at hb; exact absurd hb (by simp)
  · simpa [adoptedRecord] using hb

theorem syncDb_covers (db : List DBRecord) (pyNames blocklyNames : List String) :
    ∀ n ∈ pyNames, ((syncDb db pyNames blocklyNames).map (fun r => r.id)).contains n = true := by
  intro n hn
  by_cases hc : (db.map (fun r => r.id)).contains n = true
  · rcases List.mem_map.mp ((contains_true_iff _ _).mp hc) with ⟨r, hr, hrid⟩
    rcases pass1Step_total_of_py pyNames blocklyNames db r
        (by rw [hrid]; exact (contains_true_iff _ _).mpr hn) with ⟨r', hstep, hrid'⟩
    have hmem1 : r' ∈ syncPass1 db pyNames blocklyNames db := by
      rw [syncPass1_eq_filterMap]
      exact List.mem_filterMap.mpr ⟨r, hr, hstep⟩
    have hmem : r' ∈ syncDb db pyNames blocklyNames :=
      syncPass2_mono _ _ _ _ _ hmem1
    refine (contains_true_iff _ _).mpr (List.mem_map.mpr ⟨r', hmem, ?_⟩)
    rw [hrid', hrid]
  · have hc' : (db.map (fun r => r.id)).contains n = false := by
      simpa using hc
    have hmem : adoptedRecord n blocklyNames ∈ syncDb db pyNames blocklyNames :=
      syncPass2_adopts _ _ _ _ _ hn hc'
    exact (contains_true_iff _ _).mpr (List.mem_map.mpr ⟨_, hmem, rfl⟩)

/-- C2: reconciliation is idempotent — whatever the state of the metadata
store and the two file stores, a reconciliation pass run on the result of a
first pass (with the file stores untouched in between) performs no repair
action at all: no record deletion, no `has_blockly` downgrade, no record
insertion. -/
theorem sync_idempotent (s : ManagerState) :
    syncRepairsState (syncDbWithSystem s) = [] := by
  have hrw : syncRepairsState (syncDbWithSystem s) =
      syncRepairs (syncDb s.db (fileNames s.pyFiles) (fileNames s.blocklyFiles))
        (fileNames s.pyFiles) (fileNames s.blocklyFiles) := rfl
  rw [hrw, syncRepairs]
  apply List.append_eq_nil.mpr
  constructor
  · apply List.filterMap_eq_nil_iff.mpr
    intro r hr
    have h1 := syncDb_mem_py s.db (fileNames s.pyFiles) (fileNames s.blocklyFiles) r hr
    rw [if_neg (by rw [h1]; simp)]
    by_cases hb : r.hasBlockly = true
    · have h2 := syncDb_blockly_ok s.db (fileNames s.pyFiles) (fileNames s.blocklyFiles) r hr hb
      rw [if_neg (by rw [hb, h2]; simp)]
    · have hb' : r.hasBlockly = false := by simpa using hb
      rw [if_neg (by rw [hb']; simp)]
  · apply List.filterMap_eq_nil_iff.mpr
    intro n hn
    have h3 := syncDb_covers s.db (fileNames s.pyFiles) (fileNames s.blocklyFiles) n hn
    rw [if_neg (by rw [h3]; simp)]

/-- C3: orphan-file adoption — a script-body file whose id has no metadata
record causes the reconciliation pass to insert a metadata record for that id
with name equal to the id, description "Unknown program", and `has_blockly`
true iff a blockly (visual) file with the same id exists. -/
theorem orphan_file_adoption (s : ManagerState) (pid body : String)
    (hfile : (pid, body) ∈ s.pyFiles)
    (hnorec : (s.db.map (fun r => r.id)).contains pid = false) :
    ∃ r ∈ (syncDbWithSystem s).db, r.id = pid ∧ r.name = pid ∧
      r.description = "Unknown program" ∧
      r.hasBlockly = (fileNames s.blocklyFiles).contains pid := by
  have hpy : pid ∈ fileNames s.pyFiles := List.mem_map.mpr ⟨(pid, body), hfile, rfl⟩
  exact ⟨adoptedRecord pid (fileNames s.blocklyFiles),
    syncPass2_adopts _ _ _ _ _ hpy hnorec, rfl, rfl, rfl, rfl⟩

theorem orphan_file_adoption_witness :
    ∃ r ∈ (syncDbWithSystem ⟨[], [("p", "print(1)")], [], []⟩).db,
      r.id = "p" ∧ r.name = "p" ∧ r.description = "Unknown program" ∧
      r.hasBlockly = (fileNames ([] : FileStore)).contains "p" :=
  orphan_file_adoption ⟨[], [("p", "print(1)")], [], []⟩ "p" "print(1)"
    (by decide) (by decide)

/-- C6: update requires existence — for an id absent from the metadata store
and the cache, `update_program` fails with NotFound and leaves the metadata
store, both file stores and the cache exactly as they were. -/
theorem update_absent_id_not_found (s : ManagerState)
    (pid name description pythonCode blocklyCode : String)
    (hdb : (s.db.map (fun r => r.id)).contains pid = false)
    (_hcache : (s.cache.map (fun e => e.1)).contains pid = false) :
    updateProgram s pid name description pythonCode blocklyCode =
      (s, some ManagerError.notFound) := by
  have hex : existsProgram s pid = false := by
    unfold existsProgram
    rw [hdb]
    simp
  unfold updateProgram
  rw [hex]
  simp

theorem update_absent_id_not_found_witness :
    updateProgram ⟨[⟨"a", "n", "d", false⟩], [("a", "x")], [], [("a", ⟨"a", "n", "d", false, "x", ""⟩)]⟩
        "b" "n2" "d2" "y" "" =
      (⟨[⟨"a", "n", "d", false⟩], [("a", "x")], [], [("a", ⟨"a", "n", "d", false, "x", ""⟩)]⟩,
        some ManagerError.notFound) :=
  update_absent_id_not_found _ "b" "n2" "d2" "y" "" (by decide) (by decide)

/-- C7: execution exclusivity — a start request issued while the runner
session is in the Running state fails immediately with AlreadyRunning and
returns the session (its state and output buffer) unchanged. -/
theorem second_start_already_running (r : RunnerState)
    (h : r.phase = RunnerPhase.running) :
    runnerStart r = (r, some ManagerError.alreadyRunning) := by
  obtain ⟨ph, es, out⟩ := r
  cases ph with
  | running => rfl
  | idle => simp at h
  | finished c => simp at h

theorem second_start_already_running_witness :
    runnerStart ⟨RunnerPhase.running, none, "partial output"⟩ =
      (⟨RunnerPhase.running, none, "partial output"⟩, some ManagerError.alreadyRunning) :=
  second_start_already_running _ rfl

theorem execStep_fresh_inv (a b : ExecState) (h : ExecStep a b)
    (ha : (a.launched = false →
        runnerIsRunning a.runner = false ∧ a.runner.exitStatus = none) ∧
      (a.caller = CallerPhase.returned → a.launched = true ∧
        (runnerIsRunning a.runner = true ∨ a.runner.exitStatus.isSome = true))) :
    (b.launched = false →
        runnerIsRunning b.runner = false ∧ b.runner.exitStatus = none) ∧
      (b.caller = CallerPhase.returned → b.launched = true ∧
        (runnerIsRunning b.runner = true ∨ b.runner.exitStatus.isSome = true)) := by
  cases h with
  | launch c r hr =>
    refine ⟨fun hl => absurd hl (by simp), fun _ => ⟨rfl, Or.inl rfl⟩⟩
  | launchFail c r code hr =>
    refine ⟨fun hl => absurd hl (by simp), fun _ => ⟨rfl, Or.inr rfl⟩⟩
  | emit c l es out chunk =>
    constructor
    · intro hl
      exact absurd (ha.1 hl).1 (by simp [runnerIsRunning])
    · intro hc
      exact ⟨(ha.2 hc).1, Or.inl rfl⟩
  | finish c l es out code =>
    constructor
    · intro hl
      exact absurd (ha.1 hl).1 (by simp [runnerIsRunning])
    · intro hc
      exact ⟨(ha.2 hc).1, Or.inr rfl⟩
  | ret l r hguard =>
    constructor
    · intro hl
      exact ha.1 hl
    · intro _
      by_cases hl : l = true
      · refine ⟨hl, ?_⟩
        by_cases hr : runnerIsRunning r = true
        · exact Or.inl hr
        · right
          have hr' : runnerIsRunning r = false := by simpa using hr
          rw [execWaitGuard, hr'] at hguard
          simp only [Bool.not_false, Bool.true_and] at hguard
          cases hes : r.exitStatus with
          | none => rw [hes] at hguard; simp at hguard
          | some c2 => rfl
      · exfalso
        have hl' : l = false := by simpa using hl
        rcases ha.1 hl' with ⟨hrun, hes⟩
        rw [execWaitGuard, hrun, hes] at hguard
        simp at hguard

/-- Supporting fact for the C8 defect analysis: from a fresh session (no
previous run, so `exit_status = none`) the busy-wait of `__execute` does
give the claimed guarantee — whenever the call has returned, `start` has
been issued for it and the execution is running or terminated. The defect
exhibited by `execute_early_return_on_repeat_call` is therefore specific to
the persisted `exit_status` of a previous run. -/
theorem execute_fresh_session_blocks (s : ExecState)
    (hreach : ExecReachableFrom execInitFresh s)
    (hret : s.caller = CallerPhase.returned) :
    s.launched = true ∧
    (runnerIsRunning s.runner = true ∨ s.runner.exitStatus.isSome = true) := by
  unfold ExecReachableFrom at hreach
  have hinv : (s.launched = false →
      runnerIsRunning s.runner = false ∧ s.runner.exitStatus = none) ∧
      (s.caller = CallerPhase.returned → s.launched = true ∧
        (runnerIsRunning s.runner = true ∨ s.runner.exitStatus.isSome = true)) := by
    clear hret
    induction hreach with
    | refl => exact ⟨fun _ => ⟨rfl, rfl⟩, fun hc => by simp [execInitFresh] at hc⟩
    | tail hsteps hstep ih => exact execStep_fresh_inv _ _ hstep ih
  exact hinv.2 hret

theorem execute_fresh_session_blocks_witness :
    ExecReachableFrom execInitFresh
      ⟨CallerPhase.returned, true, ⟨RunnerPhase.running, none, ""⟩⟩ ∧
    ((⟨CallerPhase.returned, true, ⟨RunnerPhase.running, none, ""⟩⟩ : ExecState).launched = true ∧
      (runnerIsRunning ⟨RunnerPhase.running, none, ""⟩ = true ∨
        (none : Option Int).isSome = true)) := by
  have hreach : ExecReachableFrom execInitFresh
      ⟨CallerPhase.returned, true, ⟨RunnerPhase.running, none, ""⟩⟩ :=
    Relation.ReflTransGen.tail
      (Relation.ReflTransGen.tail Relation.ReflTransGen.refl
        (ExecStep.launch CallerPhase.waiting ⟨RunnerPhase.idle, none, ""⟩ rfl))
      (ExecStep.ret true ⟨RunnerPhase.running, none, ""⟩ (by decide))
  exact ⟨hreach, execute_fresh_session_blocks _ hreach rfl⟩

/-- C8 (exhibit of the defect): on a repeat `__execute` call issued after a
previous run has terminated, the previous run's persisted `exit_status`
makes the busy-wait guard of source line 135 false before the spawned
thread has issued `runner.start` for the new execution, so the call can
return while the new execution is neither running nor terminated — it has
not started at all (`launched = false`, runner not running). This
contradicts the claim, spec section 4.4's synchronous start confirmation,
and the source's own comment at line 134 ("We ensure the execution process
is started before returning"). -/
theorem execute_early_return_on_repeat_call :
    ExecReachableFrom (execInitRepeat 0 "prior output")
      ⟨CallerPhase.returned, false, ⟨RunnerPhase.finished 0, some 0, "prior output"⟩⟩ ∧
    (⟨CallerPhase.returned, false,
      ⟨RunnerPhase.finished 0, some 0, "prior output"⟩⟩ : ExecState).launched = false ∧
    runnerIsRunning ⟨RunnerPhase.finished 0, some 0, "prior output"⟩ = false := by
  refine ⟨?_, rfl, rfl⟩
  exact Relation.ReflTransGen.single
    (ExecStep.ret false ⟨RunnerPhase.finished 0, some 0, "prior output"⟩ (by decide))

/-- C9 (exhibit of the defect): in `execute_from_code` the temporary body
file's `with` scope closes as soon as `runner.start` returns, which is when
the execution context has begun, not when it has finished — so a state in
which the temporary file is already deleted while the spawned execution
context is still alive is reachable. The claim that the file remains present
for the entire lifetime of the execution context is therefore violated by
the source (the spec itself flags this scoping as a defect to fix, section
9). -/
theorem temporary_deleted_while_context_alive :
    TmpExecReachable ⟨TmpPhase.scopeClosed, false, true⟩ ∧
    (⟨TmpPhase.scopeClosed, false, true⟩ : TmpExecState).ctxAlive = true ∧
    (⟨TmpPhase.scopeClosed, false, true⟩ : TmpExecState).tempPresent = false := by
  refine ⟨?_, rfl, rfl⟩
  exact Relation.ReflTransGen.tail
    (Relation.ReflTransGen.tail
      (Relation.ReflTransGen.tail Relation.ReflTransGen.refl TmpExecStep.createTmp)
      TmpExecStep.startRet)
    (TmpExecStep.closeScope true)

theorem createProgram_stores (s : ManagerState)
    (pid name description pythonCode blocklyCode : String) :
    (createProgram s pid name description pythonCode blocklyCode).1.db =
      dbInsertProgram s.db pid name description (blocklyCode != "") ∧
    (createProgram s pid name description pythonCode blocklyCode).1.pyFiles =
      fileCreate s.pyFiles pid pythonCode := by
  unfold createProgram
  dsimp only
  constructor <;> (split <;> rfl)

theorem deleteProgram_stores (s : ManagerState) (pid : String) :
    (deleteProgram s pid).1.db = dbDeleteProgram s.db pid ∧
    (deleteProgram s pid).1.pyFiles = fileRemove s.pyFiles pid := by
  unfold deleteProgram
  dsimp only
  constructor <;> (split <;> rfl)

theorem updateProgram_stores (s : ManagerState)
    (pid name description pythonCode blocklyCode : String)
    (hex : existsProgram s pid = true) :
    (updateProgram s pid name description pythonCode blocklyCode).1.db =
      dbUpdateFields s.db pid (some name) (some description)
        (some (blocklyCode != "")) ∧
    (updateProgram s pid name description pythonCode blocklyCode).1.pyFiles =
      fileEdit s.pyFiles pid pythonCode := by
  unfold updateProgram
  rw [if_pos hex]
  dsimp only
  constructor <;> (split <;> first | rfl | (split <;> rfl))

theorem fileNames_map_fst_eq (g : String × String → String × String)
    (hg : ∀ f, (g f).1 = f.1) :
    ∀ fs : FileStore, fileNames (fs.map g) = fileNames fs := by
  intro fs
  induction fs with
  | nil => rfl
  | cons f fs ih =>
    simp only [List.map_cons, fileNames] at ih ⊢
    rw [hg f, ih]

theorem fileNames_fileCreate (fs : FileStore) (pid body : String) :
    fileNames (fileCreate fs pid body) = fileNames fs ++ [pid] := by
  simp [fileNames, fileCreate]

theorem fileNames_fileEdit (fs : FileStore) (pid body : String) :
    fileNames (fileEdit fs pid body) = fileNames fs :=
  fileNames_map_fst_eq _ (fun f => by by_cases h : (f.1 == pid) = true <;> simp [h]) fs

theorem fileNames_fileRemove_mem (fs : FileStore) (pid a : String)
    (ha : a ∈ fileNames fs) (hne : a ≠ pid) :
    a ∈ fileNames (fileRemove fs pid) := by
  rcases List.mem_map.mp ha with ⟨f, hf, rfl⟩
  exact List.mem_map.mpr ⟨f, List.mem_filter.mpr ⟨hf, by simp [hne]⟩, rfl⟩

/-- C1: invariant I1 — after the startup reconciliation pass every id in the
metadata store has a script file (first conjunct); a metadata record with no
script file at construction time is deleted by the pass (second conjunct);
and the invariant is preserved by every mutation: create, delete and update
(remaining conjuncts). -/
theorem invariantI1_established_and_preserved :
    (∀ s : ManagerState, invariantI1 (syncDbWithSystem s)) ∧
    (∀ (s : ManagerState), ∀ r ∈ s.db,
      (fileNames s.pyFiles).contains r.id = false →
      ∀ r' ∈ (syncDbWithSystem s).db, r'.id ≠ r.id) ∧
    (∀ (s : ManagerState) (pid name description pythonCode blocklyCode : String),
      invariantI1 s →
      invariantI1 (createProgram s pid name description pythonCode blocklyCode).1) ∧
    (∀ (s : ManagerState) (pid : String), invariantI1 s →
      invariantI1 (deleteProgram s pid).1) ∧
    (∀ (s : ManagerState) (pid name description pythonCode blocklyCode : String),
      invariantI1 s →
      invariantI1 (updateProgram s pid name description pythonCode blocklyCode).1) := by
  refine ⟨?_, ?_, ?_, ?_, ?_⟩
  · intro s r hr
    exact syncDb_mem_py s.db _ _ r hr
  · intro s r _ hnofile r' hr' heq
    have hcont := syncDb_mem_py s.db _ _ r' hr'
    rw [heq, hnofile] at hcont
    exact absurd hcont (by simp)
  · intro s pid name description pythonCode blocklyCode hinv r hr
    rw [(createProgram_stores s pid name description pythonCode blocklyCode).1] at hr
    rw [(createProgram_stores s pid name description pythonCode blocklyCode).2,
      fileNames_fileCreate]
    rcases List.mem_append.mp hr with hold | hnew
    · exact (contains_true_iff _ _).mpr
        (List.mem_append.mpr (Or.inl ((contains_true_iff _ _).mp (hinv r hold))))
    · have hre : r = ⟨pid, name, description, blocklyCode != ""⟩ := by
        simpa using hnew
      exact (contains_true_iff _ _).mpr
        (List.mem_append.mpr (Or.inr (by simp [hre])))
  · intro s pid hinv r hr
    rw [(deleteProgram_stores s pid).1] at hr
    rw [(deleteProgram_stores s pid).2]
    have hmem := List.mem_filter.mp hr
    have hne : r.id ≠ pid := by simpa using hmem.2
    exact (contains_true_iff _ _).mpr
      (fileNames_fileRemove_mem _ _ _ ((contains_true_iff _ _).mp (hinv r hmem.1)) hne)
  · intro s pid name description pythonCode blocklyCode hinv
    by_cases hex : existsProgram s pid = true
    · intro r hr
      rw [(updateProgram_stores s pid name description pythonCode blocklyCode hex).1] at hr
      rw [(updateProgram_stores s pid name description pythonCode blocklyCode hex).2,
        fileNames_fileEdit]
      rcases List.mem_map.mp hr with ⟨q, hq, rfl⟩
      have hid : (if (q.id == pid) = true then
          ({ q with
              name := (some name).getD q.name
              description := (some description).getD q.description
              hasBlockly := (some (blocklyCode != "")).getD q.hasBlockly } : DBRecord)
          else q).id = q.id := by
        split <;> rfl
      rw [hid]
      exact hinv q hq
    · have hs : (updateProgram s pid name description pythonCode blocklyCode).1 = s := by
        unfold updateProgram
        rw [if_neg hex]
      rw [hs]
      exact hinv

theorem invariantI1_established_and_preserved_witness :
    invariantI1 (syncDbWithSystem ⟨[⟨"a", "n", "d", false⟩], [("a", "x")], [], []⟩) ∧
    (∀ r' ∈ (syncDbWithSystem ⟨[⟨"a", "n", "d", false⟩], [], [], []⟩).db,
      r'.id ≠ ("a" : String)) ∧
    invariantI1 (createProgram ⟨[⟨"a", "n", "d", false⟩], [("a", "x")], [], []⟩
      "b" "nb" "db" "yb" "").1 ∧
    invariantI1 (deleteProgram ⟨[⟨"a", "n", "d", false⟩], [("a", "x")], [], []⟩ "a").1 ∧
    invariantI1 (updateProgram ⟨[⟨"a", "n", "d", false⟩], [("a", "x")], [], []⟩
      "a" "n2" "d2" "y2" "").1 :=
  ⟨invariantI1_established_and_preserved.1 _,
   fun r' hr' => invariantI1_established_and_preserved.2.1
     ⟨[⟨"a", "n", "d", false⟩], [], [], []⟩ ⟨"a", "n", "d", false⟩
     (by decide) (by decide) r' hr',
   invariantI1_established_and_preserved.2.2.1 _ "b" "nb" "db" "yb" ""
     (by intro r hr; rcases List.mem_singleton.mp hr with rfl; decide),
   invariantI1_established_and_preserved.2.2.2.1 _ "a"
     (by intro r hr; rcases List.mem_singleton.mp hr with rfl; decide),
   invariantI1_established_and_preserved.2.2.2.2 _ "a" "n2" "d2" "y2" ""
     (by intro r hr; rcases List.mem_singleton.mp hr with rfl; decide)⟩

theorem pass1Step_skipList (pyNames blocklyNames : List String) :
    ∀ (l₁ l₂ : List DBRecord) (r : DBRecord),
    r.id ∉ l₁.map (fun q => q.id) →
    pass1Step pyNames blocklyNames (l₁ ++ l₂) r =
      pass1Step pyNames blocklyNames l₂ r := by
  intro l₁
  induction l₁ with
  | nil => intro l₂ r _; rfl
  | cons p l₁ ih =>
    intro l₂ r hr
    simp only [List.map_cons, List.mem_cons, not_or] at hr
    rw [List.cons_append, pass1Step_skipHead pyNames blocklyNames p _ r hr.1]
    exact ih l₂ r hr.2

theorem pass1Step_eval_downgrade (pyNames blocklyNames : List String)
    (l₂ : List DBRecord) (r : DBRecord)
    (hpy : pyNames.contains r.id = true)
    (hb : r.hasBlockly = true)
    (hnbl : blocklyNames.contains r.id = false)
    (hnot : r.id ∉ l₂.map (fun q => q.id)) :
    pass1Step pyNames blocklyNames (r :: l₂) r =
      some { r with hasBlockly := false } := by
  have h2 : (r.hasBlockly && !(blocklyNames.contains r.id)) = true := by
    rw [hb, hnbl]; simp
  simp only [pass1Step]
  rw [if_neg (by rw [hpy]; simp), if_pos h2, if_pos (by simp)]
  exact pass1Step_skipAll pyNames blocklyNames l₂ { r with hasBlockly := false } hnot

theorem nodup_split_ids (db : List DBRecord) (r : DBRecord)
    (hN : (db.map (fun q => q.id)).Nodup) (hr : r ∈ db) :
    ∃ l₁ l₂, db = l₁ ++ r :: l₂ ∧ r.id ∉ l₁.map (fun q => q.id) ∧
      r.id ∉ l₂.map (fun q => q.id) := by
  rcases List.append_of_mem hr with ⟨l₁, l₂, rfl⟩
  rw [List.map_append, List.map_cons] at hN
  have h := List.nodup_append.mp hN
  refine ⟨l₁, l₂, rfl, ?_, ?_⟩
  · intro hmem
    exact h.2.2 hmem (List.mem_cons_self _ _)
  · exact (List.nodup_cons.mp h.2.1).1

theorem pass1Step_eval_of_nodup (db : List DBRecord)
    (pyNames blocklyNames : List String) (r : DBRecord)
    (hN : (db.map (fun q => q.id)).Nodup) (hr : r ∈ db)
    (hpy : pyNames.contains r.id = true)
    (hb : r.hasBlockly = true)
    (hnbl : blocklyNames.contains r.id = false) :
    pass1Step pyNames blocklyNames db r = some { r with hasBlockly := false } := by
  rcases nodup_split_ids db r hN hr with ⟨l₁, l₂, rfl, h1, h2⟩
  rw [pass1Step_skipList pyNames blocklyNames l₁ _ r h1]
  exact pass1Step_eval_downgrade pyNames blocklyNames l₂ r hpy hb hnbl h2

/-- C4: dangling-visual-flag repair only clears `has_blockly` — for a
metadata record whose script file exists but whose blockly (visual) file
does not, the reconciliation pass keeps the record with its name and
description intact and only its `has_blockly` set to false (and any record
with that id in the reconciled store is exactly that downgraded record), and
it leaves the script file store and the blockly file store completely
untouched (so it neither deletes the script file nor invents a visual
body). -/
theorem dangling_blockly_flag_repair (s : ManagerState) (r : DBRecord)
    (hN : (s.db.map (fun q => q.id)).Nodup)
    (hr : r ∈ s.db)
    (hb : r.hasBlockly = true)
    (hpy : (fileNames s.pyFiles).contains r.id = true)
    (hnbl : (fileNames s.blocklyFiles).contains r.id = false) :
    ({ r with hasBlockly := false } ∈ (syncDbWithSystem s).db) ∧
    (∀ r'' ∈ (syncDbWithSystem s).db, r''.id = r.id →
      r'' = { r with hasBlockly := false }) ∧
    (syncDbWithSystem s).pyFiles = s.pyFiles ∧
    (syncDbWithSystem s).blocklyFiles = s.blocklyFiles := by
  have heval := pass1Step_eval_of_nodup s.db (fileNames s.pyFiles)
    (fileNames s.blocklyFiles) r hN hr hpy hb hnbl
  refine ⟨?_, ?_, rfl, rfl⟩
  · apply syncPass2_mono
    rw [syncPass1_eq_filterMap]
    exact List.mem_filterMap.mpr ⟨r, hr, heval⟩
  · intro r'' hr'' hid
    rcases syncPass2_mem _ _ _ _ _ hr'' with h1 | ⟨n, _, hns, rfl⟩
    · rw [syncPass1_eq_filterMap] at h1
      rcases List.mem_filterMap.mp h1 with ⟨q, hq, hstep⟩
      have hqid : q.id = r.id := by
        rw [← (pass1Step_fields _ _ _ _ _ hstep).1, hid]
      have hqr : q = r := List.inj_on_of_nodup_map hN hq hr hqid
      subst hqr
      rw [heval] at hstep
      exact (Option.some.inj hstep).symm
    · exfalso
      have : (adoptedRecord n (fileNames s.blocklyFiles)).id = n := rfl
      rw [this] at hid
      subst hid
      have hmem : r.id ∈ s.db.map (fun q => q.id) := List.mem_map.mpr ⟨r, hr, rfl⟩
      exact (contains_false_iff _ _).mp hns hmem

theorem dangling_blockly_flag_repair_witness :
    ({ id := "p", name := "n", description := "d", hasBlockly := false } ∈
      (syncDbWithSystem ⟨[⟨"p", "n", "d", true⟩], [("p", "c")], [], []⟩).db) ∧
    (∀ r'' ∈ (syncDbWithSystem ⟨[⟨"p", "n", "d", true⟩], [("p", "c")], [], []⟩).db,
      r''.id = ("p" : String) →
      r'' = { id := "p", name := "n", description := "d", hasBlockly := false }) ∧
    (syncDbWithSystem ⟨[⟨"p", "n", "d", true⟩], [("p", "c")], [], []⟩).pyFiles =
      [("p", "c")] ∧
    (syncDbWithSystem ⟨[⟨"p", "n", "d", true⟩], [("p", "c")], [], []⟩).blocklyFiles =
      [] :=
  dangling_blockly_flag_repair ⟨[⟨"p", "n", "d", true⟩], [("p", "c")], [], []⟩
    ⟨"p", "n", "d", true⟩ (by decide) (by decide) rfl (by decide) (by decide)

theorem dbFind_eq_none (db : List DBRecord) (pid : String)
    (h : (db.map (fun r => r.id)).contains pid = false) :
    db.find? (fun r => r.id == pid) = none := by
  apply List.find?_eq_none.mpr
  intro r hr
  have hne : r.id ≠ pid :=
    fun he => (contains_false_iff _ _).mp h (List.mem_map.mpr ⟨r, hr, he⟩)
  simp [hne]

theorem dbGetById_append_fresh (db : List DBRecord)
    (pid name description : String) (hb : Bool)
    (h : (db.map (fun r => r.id)).contains pid = false) :
    dbGetById (dbInsertProgram db pid name description hb) pid =
      some ⟨pid, name, description, hb⟩ := by
  unfold dbGetById dbInsertProgram
  rw [List.find?_append, dbFind_eq_none db pid h]
  simp [List.find?]

theorem fileRead_fileCreate_fresh (fs : FileStore) (pid body : String)
    (h : (fileNames fs).contains pid = false) :
    fileRead (fileCreate fs pid body) pid = some body := by
  unfold fileRead fileCreate
  rw [List.find?_append]
  have h1 : fs.find? (fun f => f.1 == pid) = none := by
    apply List.find?_eq_none.mpr
    intro f hf
    have hne : f.1 ≠ pid :=
      fun he => (contains_false_iff _ _).mp h (List.mem_map.mpr ⟨f, hf, he⟩)
    simp [hne]
  rw [h1]
  simp [List.find?]

/-- C5: create-then-get round trip — creating a program with no blockly
(visual) body under a fresh id and reading it back yields exactly the stored
script body, `has_blockly = false` and an empty blockly body. -/
theorem create_get_round_trip (s : ManagerState)
    (pid name description pythonCode : String)
    (hdb : (s.db.map (fun r => r.id)).contains pid = false)
    (hpy : (fileNames s.pyFiles).contains pid = false) :
    (createProgram s pid name description pythonCode "").2 = none ∧
    get (createProgram s pid name description pythonCode "").1 pid =
      .ok ⟨pid, name, description, false, pythonCode, ""⟩ := by
  have hget : ∀ (bl : FileStore) (c : ProgramCache),
      get ⟨dbInsertProgram s.db pid name description ("" != ""),
           fileCreate s.pyFiles pid pythonCode, bl, c⟩ pid =
        .ok ⟨pid, name, description, false, pythonCode, ""⟩ := by
    intro bl c
    unfold get
    rw [show dbGetById (dbInsertProgram s.db pid name description ("" != "")) pid =
        some ⟨pid, name, description, false⟩ from
      dbGetById_append_fresh s.db pid name description ("" != "") hdb]
    rw [fileRead_fileCreate_fresh s.pyFiles pid pythonCode hpy]
    rfl
  constructor
  · unfold createProgram
    dsimp only
    rw [hget _ s.cache]
  · unfold createProgram
    dsimp only
    rw [hget _ s.cache]
    exact hget _ _

theorem create_get_round_trip_witness :
    (createProgram ⟨[], [], [], []⟩ "p" "my prog" "a demo" "print(1)" "").2 = none ∧
    get (createProgram ⟨[], [], [], []⟩ "p" "my prog" "a demo" "print(1)" "").1 "p" =
      .ok ⟨"p", "my prog", "a demo", false, "print(1)", ""⟩ :=
  create_get_round_trip ⟨[], [], [], []⟩ "p" "my prog" "a demo" "print(1)"
    (by decide) (by decide)

theorem dbGetById_dbUpdateFields (pid : String)
    (name? description? : Option String) (hasBlockly? : Option Bool) :
    ∀ db : List DBRecord,
    dbGetById (dbUpdateFields db pid name? description? hasBlockly?) pid =
      (dbGetById db pid).map (fun r =>
        { r with
          name := name?.getD r.name
          description := description?.getD r.description
          hasBlockly := hasBlockly?.getD r.hasBlockly }) := by
  intro db
  induction db with
  | nil => rfl
  | cons q db ih =>
    by_cases h : (q.id == pid) = true
    · unfold dbGetById dbUpdateFields
      rw [List.map_cons, if_pos h]
      rw [show List.find? (fun r => r.id == pid)
            ((⟨q.id, name?.getD q.name, description?.getD q.description,
                hasBlockly?.getD q.hasBlockly⟩ : DBRecord) ::
              List.map (fun r => if (r.id == pid) = true then
                (⟨r.id, name?.getD r.name, description?.getD r.description,
                  hasBlockly?.getD r.hasBlockly⟩ : DBRecord) else r) db) =
          some ⟨q.id, name?.getD q.name, description?.getD q.description,
            hasBlockly?.getD q.hasBlockly⟩ from List.find?_cons_of_pos _ h,
        show List.find? (fun r => r.id == pid) (q :: db) = some q from
          List.find?_cons_of_pos _ h]
      rfl
    · unfold dbGetById dbUpdateFields at ih ⊢
      rw [List.map_cons, if_neg h]
      rw [show List.find? (fun r => r.id == pid)
            ((q : DBRecord) ::
              List.map (fun r => if (r.id == pid) = true then
                (⟨r.id, name?.getD r.name, description?.getD r.description,
                  hasBlockly?.getD r.hasBlockly⟩ : DBRecord) else r) db) =
          List.find? (fun r => r.id == pid)
            (List.map (fun r => if (r.id == pid) = true then
              (⟨r.id, name?.getD r.name, description?.getD r.description,
                hasBlockly?.getD r.hasBlockly⟩ : DBRecord) else r) db) from
          List.find?_cons_of_neg _ h,
        show List.find? (fun r => r.id == pid) (q :: db) =
            List.find? (fun r => r.id == pid) db from
          List.find?_cons_of_neg _ h]
      exact ih

theorem fileRead_fileEdit_of_mem (pid body : String) :
    ∀ fs : FileStore, (fileNames fs).contains pid = true →
    fileRead (fileEdit fs pid body) pid = some body := by
  intro fs
  induction fs with
  | nil => intro h; simp [fileNames] at h
  | cons f fs ih =>
    intro h
    by_cases hf : (f.1 == pid) = true
    · unfold fileEdit fileRead
      rw [List.map_cons, if_pos hf]
      rw [show List.find? (fun x => x.1 == pid)
            ((f.1, body) ::
              List.map (fun x => if (x.1 == pid) = true then (x.1, body) else x) fs) =
          some (f.1, body) from List.find?_cons_of_pos _ hf]
      rfl
    · have hmem : pid ∈ (f.1 :: fileNames fs) := (contains_true_iff _ _).mp h
      have h' : (fileNames fs).contains pid = true := by
        rcases List.mem_cons.mp hmem with he | hm
        · exact absurd (by simp [he] : (f.1 == pid) = true) hf
        · exact (contains_true_iff _ _).mpr hm
      unfold fileEdit fileRead at ih ⊢
      rw [List.map_cons, if_neg hf]
      rw [show List.find? (fun x => x.1 == pid)
            (f :: List.map (fun x => if (x.1 == pid) = true then (x.1, body) else x) fs) =
          List.find? (fun x => x.1 == pid)
            (List.map (fun x => if (x.1 == pid) = true then (x.1, body) else x) fs) from
          List.find?_cons_of_neg _ hf]
      exact ih h'

/-- C10: an empty blockly (visual) body on update is indistinguishable from
no visual body — updating an existing program whose record has
`has_blockly = true` with an empty blockly body succeeds, sets the record's
`has_blockly` to false (keeping the new name and description), makes a
subsequent `get` return an empty blockly body, and leaves the blockly file
store completely untouched, the stale visual file included; a later
reconciliation pass does not delete that file either. -/
theorem update_empty_visual_clears_flag (s : ManagerState)
    (pid name description pythonCode vbody : String) (r : DBRecord)
    (hr : dbGetById s.db pid = some r)
    (hpyc : (fileNames s.pyFiles).contains pid = true)
    (hcg : (cacheGet s.cache pid).isSome = true)
    (hvb : (pid, vbody) ∈ s.blocklyFiles) :
    (updateProgram s pid name description pythonCode "").2 = none ∧
    dbGetById (updateProgram s pid name description pythonCode "").1.db pid =
      some ⟨r.id, name, description, false⟩ ∧
    get (updateProgram s pid name description pythonCode "").1 pid =
      .ok ⟨r.id, name, description, false, pythonCode, ""⟩ ∧
    (updateProgram s pid name description pythonCode "").1.blocklyFiles =
      s.blocklyFiles ∧
    (pid, vbody) ∈
      (syncDbWithSystem (updateProgram s pid name description pythonCode "").1).blocklyFiles := by
  have hdbc : (s.db.map (fun q => q.id)).contains pid = true := by
    have hr' : List.find? (fun x => x.id == pid) s.db = some r := hr
    have hmem := List.mem_of_find?_eq_some hr'
    have hid : r.id = pid := by
      have h2 := @List.find?_some DBRecord (fun x => x.id == pid) r s.db hr'
      simpa using h2
    exact (contains_true_iff _ _).mpr (List.mem_map.mpr ⟨r, hmem, hid⟩)
  have hex : existsProgram s pid = true := by
    unfold existsProgram
    rw [hdbc, hpyc]
    rfl
  have hupd : dbGetById
      (dbUpdateFields s.db pid (some name) (some description) (some ("" != ""))) pid =
      some ⟨r.id, name, description, false⟩ := by
    rw [dbGetById_dbUpdateFields, hr]
    rfl
  have hget : ∀ (bl : FileStore) (c : ProgramCache),
      get ⟨dbUpdateFields s.db pid (some name) (some description) (some ("" != "")),
           fileEdit s.pyFiles pid pythonCode, bl, c⟩ pid =
        .ok ⟨r.id, name, description, false, pythonCode, ""⟩ := by
    intro bl c
    unfold get
    rw [hupd, fileRead_fileEdit_of_mem pid pythonCode s.pyFiles hpyc]
    rfl
  rcases Option.isSome_iff_exists.mp hcg with ⟨prog, hprog⟩
  have hrun : updateProgram s pid name description pythonCode "" =
      (⟨dbUpdateFields s.db pid (some name) (some description) (some ("" != "")),
        fileEdit s.pyFiles pid pythonCode, s.blocklyFiles,
        cacheRemove s.cache pid ++ [(pid, ⟨r.id, name, description, false, pythonCode, ""⟩)]⟩,
       none) := by
    unfold updateProgram
    rw [if_pos hex]
    dsimp only
    rw [hprog]
    dsimp only
    rw [hget _ _]
    rfl
  rw [hrun]
  refine ⟨rfl, hupd, hget _ _, rfl, hvb⟩

theorem update_empty_visual_clears_flag_witness :
    (updateProgram ⟨[⟨"p", "n", "d", true⟩], [("p", "c")], [("p", "<xml>")],
        [("p", ⟨"p", "n", "d", true, "c", "<xml>"⟩)]⟩ "p" "n2" "d2" "c2" "").2 = none ∧
    dbGetById (updateProgram ⟨[⟨"p", "n", "d", true⟩], [("p", "c")], [("p", "<xml>")],
        [("p", ⟨"p", "n", "d", true, "c", "<xml>"⟩)]⟩ "p" "n2" "d2" "c2" "").1.db "p" =
      some ⟨"p", "n2", "d2", false⟩ ∧
    get (updateProgram ⟨[⟨"p", "n", "d", true⟩], [("p", "c")], [("p", "<xml>")],
        [("p", ⟨"p", "n", "d", true, "c", "<xml>"⟩)]⟩ "p" "n2" "d2" "c2" "").1 "p" =
      .ok ⟨"p", "n2", "d2", false, "c2", ""⟩ ∧
    (updateProgram ⟨[⟨"p", "n", "d", true⟩], [("p", "c")], [("p", "<xml>")],
        [("p", ⟨"p", "n", "d", true, "c", "<xml>"⟩)]⟩ "p" "n2" "d2" "c2" "").1.blocklyFiles =
      [("p", "<xml>")] ∧
    ("p", "<xml>") ∈
      (syncDbWithSystem (updateProgram ⟨[⟨"p", "n", "d", true⟩], [("p", "c")], [("p", "<xml>")],
        [("p", ⟨"p", "n", "d", true, "c", "<xml>"⟩)]⟩ "p" "n2" "d2" "c2" "").1).blocklyFiles :=
  update_empty_visual_clears_flag
    ⟨[⟨"p", "n", "d", true⟩], [("p", "c")], [("p", "<xml>")],
      [("p", ⟨"p", "n", "d", true, "c", "<xml>"⟩)]⟩
    "p" "n2" "d2" "c2" "<xml>" ⟨"p", "n", "d", true⟩
    (by decide) (by decide) (by decide) (by decide)

end ProgramsManagerV2
